import Mathlib

/-!
Verification of the ESM common layer of openmw-rg552
(`src/components/esm/esmcommon.hpp`).

Bytes are modelled as natural numbers below 256, char buffers as
`List Nat`, and `std::string_view` inputs as `List Nat`.  A
`FixedString<capacity>` value is a list of exactly `capacity` bytes;
the capacity is passed explicitly and theorems carry the length
hypothesis.  Machine-integer reinterpretation (`memcpy` between the
byte buffer and a `uint32_t`) is modelled explicitly through the host
endianness, since the numeric value a `memcpy` produces depends on it.
-/

namespace ESM

/-- Host byte order: how `memcpy` between a `uint32_t` and a 4-byte
buffer associates bytes with significance. -/
inductive Endianness where
  | little
  | big
deriving DecidableEq, Repr

/-- The unsigned 32-bit value whose in-memory bytes are `bs`, on a host
with endianness `e`.  On a little-endian host byte 0 is least
significant; on a big-endian host byte 0 is most significant. -/
def bytesToUInt : Endianness → List Nat → Nat
  | .little, bs => bs.foldr (fun b acc => b + 256 * acc) 0
  | .big, bs => bs.foldl (fun acc b => acc * 256 + b) 0

/-- The in-memory byte sequence of the unsigned 32-bit value `v` on a
host with endianness `e`. -/
def uintToBytes (e : Endianness) (v : Nat) : List Nat :=
  match e with
  | .little => [v % 256, v / 256 % 256, v / 65536 % 256, v / 16777216 % 256]
  | .big => [v / 16777216 % 256, v / 65536 % 256, v / 256 % 256, v % 256]

/-- `enum Version` from esmcommon.hpp. -/
def VER_12 : Nat := 0x3f99999a

/-- `enum Version` from esmcommon.hpp. -/
def VER_13 : Nat := 0x3fa66666

/-- `RecordFlag::FLAG_Persistent` from esmcommon.hpp. -/
def FLAG_Persistent : Nat := 0x00000400

/-- `RecordFlag::FLAG_Blocked` from esmcommon.hpp. -/
def FLAG_Blocked : Nat := 0x00002000

/-- Test of the `Blocked` bit in a record's flag word. -/
def isBlocked (flags : Nat) : Bool :=
  flags &&& FLAG_Blocked != 0

namespace FixedString

/-- C `strnlen(s, n)`: the index of the first zero byte, or `n` when the
first `n` bytes are all nonzero.  The buffer is the list `l`; our calls
always have `n ≤ l.length`, matching the in-bounds C calls. -/
def strnlen : List Nat → Nat → Nat
  | _, 0 => 0
  | [], _ + 1 => 0
  | b :: rest, n + 1 => if b = 0 then 0 else strnlen rest n + 1

/-- `FixedString::toStringView`:
`std::string_view(mData, strnlen(mData, capacity))`. -/
def toStringView (capacity : Nat) (mData : List Nat) : List Nat :=
  mData.take (strnlen mData capacity)

/-- `FixedString::toInt` (capacity 4 only, enforced by `static_assert`):
`memcpy(&value, mData, 4)` — the `uint32_t` whose bytes are the buffer,
as interpreted by the host's byte order. -/
def toInt (e : Endianness) (mData : List Nat) : Nat :=
  bytesToUInt e mData

/-- `FixedString::clear`: `memset(mData, 0, capacity)`. -/
def clear (capacity : Nat) : List Nat :=
  List.replicate capacity 0

/-- `FixedString::assign(value)`, translated branch by branch:
empty input clears the buffer; a short input is copied, preceded for
capacity 4 by a full `memset` to zero and followed for other capacities
by writing a single terminator byte (the rest of the old buffer bytes
stay); a long input is truncated to `capacity` bytes, with the last
byte overwritten by a terminator unless the capacity is 4. -/
def assign (capacity : Nat) (mData value : List Nat) : List Nat :=
  if value.length = 0 then
    clear capacity
  else if value.length < capacity then
    if capacity = 4 then
      value ++ List.replicate (capacity - value.length) 0
    else
      value ++ 0 :: mData.drop (value.length + 1)
  else
    if capacity = 4 then
      value.take capacity
    else
      value.take (capacity - 1) ++ [0]

/-- `FixedString::operator=(uint32_t)` (capacity 4 only):
`memcpy(&mData, &value, 4)` — the buffer becomes the in-memory bytes of
the value on the host. -/
def assignUInt32 (e : Endianness) (value : Nat) : List Nat :=
  uintToBytes e value

/-- Loop body of `operator==(const FixedString<capacity>&, const T* const&)`:
walk the remaining buffer bytes, at each step comparing with the byte
the C-string pointer designates; mismatch returns false, a matching
zero byte returns true, and when the whole buffer matched without a
zero the byte one past the buffer must be the terminator. -/
def eqCStringAux : List Nat → (Nat → Nat) → Bool
  | [], rhs => rhs 0 == 0
  | b :: rest, rhs =>
    if b ≠ rhs 0 then false
    else if b = 0 then true
    else eqCStringAux rest (fun i => rhs (i + 1))

/-- `operator==(const FixedString<capacity>&, const T* const&)`:
the loop starts at index 0 of the C string. -/
def eqCString (mData : List Nat) (rhs : Nat → Nat) : Bool :=
  eqCStringAux mData rhs

/-- The indexing function of a null-terminated C string whose text (the
bytes before the terminator) is `r`: index `i` reads `r[i]` inside the
text and the terminator `0` at index `r.length`. -/
def cstr (r : List Nat) (i : Nat) : Nat :=
  r.getD i 0

/-- The zero-tail property of a buffer: every byte at or after the first
zero byte is zero. -/
def zeroTail : List Nat → Bool
  | [] => true
  | b :: rest => if b = 0 then rest.all (fun x => x == 0) else zeroTail rest

end FixedString

/-- The `ESM_Context` struct from esmcommon.hpp: the saveable snapshot
of a reader's position and accounting state.  `recName`/`subName` are
`NAME` (`FixedString<4>`) buffers, modelled as 4-byte lists. -/
structure ESM_Context where
  filename : String
  leftRec : Nat
  leftSub : Nat
  leftFile : Nat
  recName : List Nat
  subName : List Nat
  index : Int
  parentFileIndices : List Int
  subCached : Bool
  filePos : Nat
deriving DecidableEq, Repr

/-- Modelled from the spec: the `RecordStreamReader` states
`BetweenRecords`, `InRecord` (header consumed, subrecords pending) and
`InSubrecord` (subrecord header consumed, payload pending).  The reader
class itself is not under src/, only its `ESM_Context` declaration. -/
inductive ReaderState where
  | BetweenRecords
  | InRecord
  | InSubrecord
deriving DecidableEq, Repr

/-- Modelled from the spec: a `RecordStreamReader` — an exclusive cursor
(`pos`) over one open file's bytes (`data`), a parse state, and the live
`ESM_Context` accounting state.  The reader class is not under src/. -/
structure Reader where
  data : List Nat
  pos : Nat
  state : ReaderState
  ctx : ESM_Context
deriving DecidableEq, Repr

namespace Reader

/-- The next byte the reader would consume, and everything after it. -/
def restOfFile (r : Reader) : List Nat :=
  r.data.drop r.pos

/-- Modelled from the spec: `saveContext()` captures the full state
tuple, recording the raw byte offset in `filePos` ("File position.
Only used for stored contexts"). -/
def saveContext (r : Reader) : ESM_Context :=
  { r.ctx with filePos := r.pos }

/-- Modelled from the spec: `restoreContext(ctx)` overwrites the
reader's live state from the saved copy and repositions the underlying
byte cursor to the saved offset exactly. -/
def restoreContext (r : Reader) (c : ESM_Context) : Reader :=
  { r with ctx := c, pos := c.filePos }

/-- Read exactly 4 bytes at the cursor, advancing it; fails when fewer
than 4 bytes remain in the file. -/
def read4 (r : Reader) : Option (List Nat × Reader) :=
  if r.pos + 4 ≤ r.data.length then
    some ((r.data.drop r.pos).take 4, { r with pos := r.pos + 4 })
  else
    none

/-- Modelled from the spec: `peekSubrecordTag()` reads the next
subrecord's 4-byte tag without committing to consuming it, storing it
in `subName` and setting the `subCached` condition; a tag already
cached is simply returned again.  Valid only in `InRecord` with
subrecord bytes remaining. -/
def peekSubrecordTag (r : Reader) : Option (List Nat × Reader) :=
  if r.state ≠ ReaderState.InRecord then none
  else if r.ctx.subCached then some (r.ctx.subName, r)
  else
    match read4 r with
    | none => none
    | some (tag, r1) =>
      some (tag, { r1 with ctx := { r1.ctx with subName := tag, subCached := true } })

/-- Outcome of `nextSubrecordHeader()`: a header with its tag, the
"no more subrecords" transition back to `BetweenRecords`, or an error
(`FormatError` on malformed data, `UsageError` outside `InRecord`). -/
inductive SubHeaderResult where
  | header (tag : List Nat) (r : Reader)
  | noMore (r : Reader)
  | err
deriving DecidableEq, Repr

/-- Modelled from the spec: `nextSubrecordHeader()` — valid only in
`InRecord`; with `leftRec` zero it transitions back to `BetweenRecords`
reporting "no more subrecords"; otherwise it obtains the subrecord tag
(reusing the cached one when `subCached` is set, instead of re-reading),
reads the 4-byte declared length, decrements `leftRec` by the 8-byte
header size, sets `leftSub` to the declared length and transitions to
`InSubrecord`; a declared length exceeding the remaining `leftRec` is a
`FormatError`. -/
def nextSubrecordHeader (r : Reader) : SubHeaderResult :=
  if r.state ≠ ReaderState.InRecord then .err
  else if r.ctx.leftRec = 0 then .noMore { r with state := ReaderState.BetweenRecords }
  else
    let step1 : Option (List Nat × Reader) :=
      if r.ctx.subCached then
        some (r.ctx.subName, { r with ctx := { r.ctx with subCached := false } })
      else
        match read4 r with
        | none => none
        | some (tag, r1) => some (tag, { r1 with ctx := { r1.ctx with subName := tag } })
    match step1 with
    | none => .err
    | some (tag, r1) =>
      match read4 r1 with
      | none => .err
      | some (lenBytes, r2) =>
        let len := bytesToUInt Endianness.little lenBytes
        if r.ctx.leftRec < 8 ∨ r.ctx.leftRec - 8 < len then .err
        else
          .header tag
            { r2 with
              state := ReaderState.InSubrecord,
              ctx := { r2.ctx with leftRec := r.ctx.leftRec - 8, leftSub := len } }

end Reader

/-- Modelled from the spec: a record as the `MultiFileOverlay` sees it —
a caller-supplied identity key, the header flag word and the payload.
The overlay itself is not under src/; only `RecordFlag` is. -/
structure OverlayRecord where
  key : Nat
  flags : Nat
  payload : List Nat
deriving DecidableEq, Repr

/-- Modelled from the spec: an element of the merged logical stream —
either a visible record carrying its true originating file index, or a
tombstone informing the caller a key was removed by a `Blocked` entry. -/
inductive LogicalRecord where
  | record (fileIdx : Nat) (rec : OverlayRecord)
  | removed (fileIdx : Nat) (key : Nat)
deriving DecidableEq, Repr

namespace MultiFileOverlay

/-- Whether file `f` defines (or blocks) a record with key `k`. -/
def definesKey (f : List OverlayRecord) (k : Nat) : Bool :=
  f.any (fun e => e.key == k)

/-- Modelled from the spec: the ownership map — the winning file index
for key `k` is the highest-indexed file that defines or blocks `k`. -/
def winnerIdx (files : List (List OverlayRecord)) (k : Nat) : Option Nat :=
  ((List.range files.length).filter
    (fun i => definesKey (files.getD i []) k)).getLast?

/-- Modelled from the spec: what file `i` contributes to the merged
stream for one of its entries: nothing when a later file overrides the
key, a tombstone when the entry's `Blocked` flag is set, and the record
itself (with its true originating file index) otherwise. -/
def entryOut (files : List (List OverlayRecord)) (i : Nat) (e : OverlayRecord) :
    Option LogicalRecord :=
  if winnerIdx files e.key = some i then
    some (if isBlocked e.flags then LogicalRecord.removed i e.key
          else LogicalRecord.record i e)
  else none

/-- Modelled from the spec: the part of the merged stream contributed by
file `i`, preserving that file's internal sequence. -/
def fileOutput (files : List (List OverlayRecord)) (i : Nat) : List LogicalRecord :=
  (files.getD i []).filterMap (entryOut files i)

/-- Modelled from the spec: the full logical record stream produced by
repeated `nextLogicalRecord()` calls over the ordered file list. -/
def nextLogicalRecordStream (files : List (List OverlayRecord)) : List LogicalRecord :=
  (List.range files.length).flatMap (fileOutput files)

/-- The visible (non-tombstone) records for key `k` in a merged
stream. -/
def visibleForKey (out : List LogicalRecord) (k : Nat) : List LogicalRecord :=
  out.filter (fun lr =>
    match lr with
    | LogicalRecord.record _ e => e.key == k
    | LogicalRecord.removed _ _ => false)

end MultiFileOverlay

/-! ### Helper lemmas -/

namespace FixedString

theorem strnlen_le (l : List Nat) (n : Nat) : strnlen l n ≤ n := by
  induction l generalizing n with
  | nil => cases n <;> simp [strnlen]
  | cons b rest ih =>
    cases n with
    | zero => simp [strnlen]
    | succ m =>
      simp only [strnlen]
      split
      · exact Nat.zero_le _
      · exact Nat.succ_le_succ (ih m)

theorem strnlen_le_length (l : List Nat) (n : Nat) : strnlen l n ≤ l.length := by
  induction l generalizing n with
  | nil => cases n <;> simp [strnlen]
  | cons b rest ih =>
    cases n with
    | zero => simp [strnlen]
    | succ m =>
      simp only [strnlen, List.length_cons]
      split
      · exact Nat.zero_le _
      · exact Nat.succ_le_succ (ih m)

theorem strnlen_le_of_getD_zero (l : List Nat) (n i : Nat)
    (hi : i < n) (hz : l.getD i 0 = 0) : strnlen l n ≤ i := by
  induction l generalizing n i with
  | nil => cases n <;> simp [strnlen]
  | cons b rest ih =>
    cases n with
    | zero => simp [strnlen]
    | succ m =>
      simp only [strnlen]
      split
      · exact Nat.zero_le _
      · rename_i hb
        cases i with
        | zero => simp [List.getD] at hz; exact absurd hz hb
        | succ k =>
          exact Nat.succ_le_succ (ih m k (Nat.lt_of_succ_lt_succ hi) hz)

theorem take_strnlen_eq_takeWhile (l : List Nat) :
    l.take (strnlen l l.length) = l.takeWhile (fun b => b != 0) := by
  induction l with
  | nil => simp [strnlen]
  | cons b rest ih =>
    simp only [List.length_cons, strnlen]
    by_cases hb : b = 0
    · simp [hb, List.takeWhile_cons]
    · simp [hb, List.takeWhile_cons, List.take_succ_cons, ih]

theorem zeroTail_of_all_ne_zero (l : List Nat) (h : ∀ b ∈ l, b ≠ 0) :
    zeroTail l = true := by
  induction l with
  | nil => simp [zeroTail]
  | cons b rest ih =>
    have hb : b ≠ 0 := h b (List.mem_cons_self b rest)
    simp only [zeroTail, if_neg hb]
    exact ih (fun x hx => h x (List.mem_cons_of_mem b hx))

theorem zeroTail_of_all_zero (l : List Nat) (h : ∀ b ∈ l, b = 0) :
    zeroTail l = true := by
  cases l with
  | nil => simp [zeroTail]
  | cons b rest =>
    have hb : b = 0 := h b (List.mem_cons_self b rest)
    simp only [zeroTail, if_pos hb, List.all_eq_true]
    intro x hx
    simpa using h x (List.mem_cons_of_mem b hx)

theorem zeroTail_append (v z : List Nat) (hv : ∀ b ∈ v, b ≠ 0)
    (hz : ∀ b ∈ z, b = 0) : zeroTail (v ++ z) = true := by
  induction v with
  | nil => simpa using zeroTail_of_all_zero z hz
  | cons b rest ih =>
    have hb : b ≠ 0 := hv b (List.mem_cons_self b rest)
    simp only [List.cons_append, zeroTail, if_neg hb]
    exact ih (fun x hx => hv x (List.mem_cons_of_mem b hx))

end FixedString

/-! ### Claim theorems -/

namespace FixedString

/-- C8: `toStringView()` (and hence `toString()`) returns exactly the
bytes of the buffer up to (not including) the first zero byte; when the
buffer contains no zero byte it returns all `N` bytes; the returned
text never exceeds the capacity `N`. -/
theorem toStringView_spec (capacity : Nat) (mData : List Nat)
    (hlen : mData.length = capacity) :
    toStringView capacity mData = mData.takeWhile (fun b => b != 0) ∧
    (toStringView capacity mData).length ≤ capacity ∧
    ((∀ b ∈ mData, b ≠ 0) → toStringView capacity mData = mData) := by
  subst hlen
  refine ⟨take_strnlen_eq_takeWhile mData, ?_, ?_⟩
  · show (mData.take (strnlen mData mData.length)).length ≤ mData.length
    rw [List.length_take]
    exact min_le_right _ _
  · intro h
    rw [show toStringView mData.length mData
          = mData.take (strnlen mData mData.length) from rfl,
        take_strnlen_eq_takeWhile, List.takeWhile_eq_self_iff]
    intro x hx
    simpa using h x hx

/-- C8 witness: a concrete buffer with an interior zero byte. -/
theorem toStringView_spec_witness :
    toStringView 3 [65, 0, 66] = [65, 0, 66].takeWhile (fun b => b != 0) ∧
    (toStringView 3 [65, 0, 66]).length ≤ 3 ∧
    ((∀ b ∈ [65, 0, 66], b ≠ 0) → toStringView 3 [65, 0, 66] = [65, 0, 66]) :=
  toStringView_spec 3 [65, 0, 66] rfl

/-- C5 counterexample: `toInt` is a raw `memcpy` reinterpretation, so it
is not independent of the host architecture — on a big-endian host the
buffer `[1,0,0,0]` reads back as `16777216`, not as the little-endian
value `1 = b0 + 256*b1 + 65536*b2 + 16777216*b3`. -/
theorem toInt_endianness_cex :
    toInt Endianness.big [1, 0, 0, 0] ≠
      [1, 0, 0, 0].getD 0 0 + 256 * [1, 0, 0, 0].getD 1 0 +
        65536 * [1, 0, 0, 0].getD 2 0 + 16777216 * [1, 0, 0, 0].getD 3 0 := by
  decide

/-- C5 (amended): on a little-endian host — such as the project's target
platform — `toInt()` returns the little-endian interpretation of the
four buffer bytes: `b0 + 256*b1 + 65536*b2 + 16777216*b3`. -/
theorem toInt_little_endian (mData : List Nat) (hlen : mData.length = 4) :
    toInt Endianness.little mData =
      mData.getD 0 0 + 256 * mData.getD 1 0 + 65536 * mData.getD 2 0 +
        16777216 * mData.getD 3 0 := by
  match mData, hlen with
  | [b0, b1, b2, b3], _ =>
    simp [toInt, bytesToUInt, List.foldr]
    ring

/-- C5 witness: concrete four-byte buffer. -/
theorem toInt_little_endian_witness :
    toInt Endianness.little [78, 65, 77, 69] =
      [78, 65, 77, 69].getD 0 0 + 256 * [78, 65, 77, 69].getD 1 0 +
        65536 * [78, 65, 77, 69].getD 2 0 + 16777216 * [78, 65, 77, 69].getD 3 0 :=
  toInt_little_endian [78, 65, 77, 69] rfl

/-- C3: assigning a 32-bit value into a `FixedString<4>` via
`operator=(uint32_t)` and reading it back with `toInt()` returns exactly
that value, on a host of either endianness (both operations are raw
`memcpy`s through the same byte order, so the round trip has no byte
drift). -/
theorem assignUInt32_toInt_roundTrip (e : Endianness) (tag : Nat)
    (htag : tag < 4294967296) :
    toInt e (assignUInt32 e tag) = tag := by
  cases e <;>
    simp [toInt, assignUInt32, uintToBytes, bytesToUInt, List.foldr, List.foldl] <;>
    omega

/-- C3 witness: the round trip at the concrete tag 0x454D4152. -/
theorem assignUInt32_toInt_roundTrip_witness :
    toInt Endianness.little (assignUInt32 Endianness.little 1163281746) = 1163281746 :=
  assignUInt32_toInt_roundTrip Endianness.little 1163281746 (by decide)

/-- C9: `assign` of an empty string clears the whole buffer (equivalent
to `clear()`): every byte becomes zero, the subsequent `toStringView()`
is empty, and for capacity 4 `toInt()` returns 0 on either host byte
order. -/
theorem assign_empty_spec (capacity : Nat) (mData : List Nat)
    (hlen : mData.length = capacity) :
    assign capacity mData [] = clear capacity ∧
    toStringView capacity (assign capacity mData []) = [] ∧
    (capacity = 4 → ∀ e, toInt e (assign capacity mData []) = 0) := by
  have hassign : assign capacity mData [] = clear capacity := by
    simp [assign]
  refine ⟨hassign, ?_, ?_⟩
  · rw [hassign]
    cases capacity with
    | zero => simp [clear, toStringView, strnlen]
    | succ n => simp [clear, toStringView, List.replicate_succ, strnlen]
  · intro hc e
    subst hc
    rw [hassign]
    cases e <;> simp [clear, toInt, bytesToUInt, List.replicate, List.foldr, List.foldl]

/-- C9 witness: capacity 4 with a dirty prior buffer. -/
theorem assign_empty_spec_witness :
    assign 4 [1, 2, 3, 4] [] = clear 4 ∧
    toStringView 4 (assign 4 [1, 2, 3, 4] []) = [] ∧
    (4 = 4 → ∀ e, toInt e (assign 4 [1, 2, 3, 4] []) = 0) :=
  assign_empty_spec 4 [1, 2, 3, 4] rfl

/-- C1 counterexample: `assign` does not zero-pad the unused tail for
every capacity and input.  For capacity 3 (a null-terminating capacity)
assigning `"X"` over the dirty buffer `[65,66,67]` leaves the stale byte
`67` after the terminator; and even for capacity 4 an input with an
embedded zero byte (`[0,65]`) leaves a nonzero byte after the first zero
byte of the buffer. -/
theorem assign_zero_pad_cex :
    zeroTail (assign 3 [65, 66, 67] [88]) = false ∧
    zeroTail (assign 4 [0, 0, 0, 0] [0, 65]) = false := by
  decide

/-- C1 (amended): after `assign(text)` with a `text` free of embedded
zero bytes, every byte beyond the logical string length is zero in
exactly these cases: capacity 4 (where `assign` zeroes the whole buffer
before copying a short input), the empty input (full `clear`), inputs of
length at least `N-1` (nothing follows the terminator), or a prior
buffer whose bytes after the terminator position were already zero.
For other capacities `assign` writes only a single terminator byte and
leaves the bytes after it unchanged. -/
theorem assign_zero_pad_amended (capacity : Nat) (mData value : List Nat)
    (hlen : mData.length = capacity)
    (hval : ∀ b ∈ value, b ≠ 0)
    (hcond : capacity = 4 ∨ value = [] ∨
      ∀ j, value.length < j → j < capacity → mData.getD j 0 = 0) :
    zeroTail (assign capacity mData value) = true := by
  by_cases hempty : value.length = 0
  · rw [List.length_eq_zero] at hempty
    subst hempty
    simp only [assign, List.length_nil, if_pos rfl]
    exact zeroTail_of_all_zero _ (by simp [clear])
  · by_cases hshort : value.length < capacity
    · by_cases hc4 : capacity = 4
      · simp only [assign, if_neg hempty, if_pos hshort, if_pos hc4]
        exact zeroTail_append _ _ hval (by simp)
      · simp only [assign, if_neg hempty, if_pos hshort, if_neg hc4]
        have htail : ∀ b ∈ (0 : Nat) :: mData.drop (value.length + 1), b = 0 := by
          intro b hb
          rcases List.mem_cons.mp hb with hb0 | hbdrop
          · exact hb0
          · rcases List.mem_iff_getElem.mp hbdrop with ⟨k, hk, hbk⟩
            have hgd : mData.getD (value.length + 1 + k) 0 = 0 := by
              rcases hcond with h4 | hnil | hz
              · exact absurd h4 hc4
              · rw [hnil] at hempty; simp at hempty
              · apply hz
                · omega
                · have : k < mData.length - (value.length + 1) := by
                    simpa using hk
                  omega
            rw [← hbk, List.getElem_drop]
            have hlt : value.length + 1 + k < mData.length := by
              have : k < mData.length - (value.length + 1) := by simpa using hk
              omega
            rw [List.getD_eq_getElem _ _ hlt] at hgd
            exact hgd
        exact zeroTail_append _ _ hval htail
    · by_cases hc4 : capacity = 4
      · simp only [assign, if_neg hempty, if_neg hshort, if_pos hc4]
        exact zeroTail_of_all_ne_zero _
          (fun b hb => hval b (List.mem_of_mem_take hb))
      · simp only [assign, if_neg hempty, if_neg hshort, if_neg hc4]
        exact zeroTail_append _ _
          (fun b hb => hval b (List.mem_of_mem_take hb)) (by simp)

/-- C1 witness: capacity 4, dirty prior buffer, short clean input. -/
theorem assign_zero_pad_amended_witness :
    zeroTail (assign 4 [65, 66, 67, 68] [88]) = true :=
  assign_zero_pad_amended 4 [65, 66, 67, 68] [88] rfl
    (by decide) (Or.inl rfl)

theorem eqCStringAux_iff (l r : List Nat) (hr : ∀ b ∈ r, b ≠ 0) :
    (eqCStringAux l (cstr r) = true ↔ l.takeWhile (fun b => b != 0) = r) := by
  induction l generalizing r with
  | nil =>
    cases r with
    | nil => simp [eqCStringAux, cstr]
    | cons c r2 =>
      have hc : c ≠ 0 := hr c (List.mem_cons_self c r2)
      have h0 : cstr (c :: r2) 0 = c := by simp [cstr]
      simp [eqCStringAux, h0, hc]
  | cons b rest ih =>
    cases r with
    | nil =>
      by_cases hb : b = 0 <;>
        simp [eqCStringAux, cstr, hb, List.takeWhile_cons]
    | cons c r2 =>
      have hc : c ≠ 0 := hr c (List.mem_cons_self c r2)
      have hr2 : ∀ x ∈ r2, x ≠ 0 := fun x hx => hr x (List.mem_cons_of_mem c hx)
      have h0 : cstr (c :: r2) 0 = c := by simp [cstr]
      have hshift : (fun i => cstr (c :: r2) (i + 1)) = cstr r2 := by
        funext i
        simp [cstr]
      by_cases hbc : b = c
      · subst hbc
        simp only [eqCStringAux, h0, hshift, ne_eq, not_true_eq_false, if_false,
          if_neg hc, List.takeWhile_cons]
        rw [ih r2 hr2]
        simp [hc]
      · simp only [eqCStringAux, h0, List.takeWhile_cons]
        by_cases hb : b = 0
        · simp [hb, Ne.symm hc, hbc]
        · simp [hb, hbc]

/-- C4: the pointer overload of `operator==` returns true exactly when
the null-terminated text of the buffer (its bytes up to the first zero
byte, or all `N` bytes when there is none) equals the text of the
null-terminated C string `r`; the comparison stops at the first null
byte found on either side. -/
theorem eqCString_iff (capacity : Nat) (mData r : List Nat)
    (hlen : mData.length = capacity) (hr : ∀ b ∈ r, b ≠ 0) :
    (eqCString mData (cstr r) = true ↔ toStringView capacity mData = r) := by
  subst hlen
  rw [show toStringView mData.length mData
        = mData.take (strnlen mData mData.length) from rfl,
    take_strnlen_eq_takeWhile]
  exact eqCStringAux_iff mData r hr

/-- C4 witness: a buffer whose text is three bytes compared against the
equal three-byte C string. -/
theorem eqCString_iff_witness :
    (eqCString [78, 80, 67, 0] (cstr [78, 80, 67]) = true ↔
      toStringView 4 [78, 80, 67, 0] = [78, 80, 67]) :=
  eqCString_iff 4 [78, 80, 67, 0] [78, 80, 67] rfl (by decide)

/-- C10: for capacities other than 4, `assign` always leaves a null
terminator in the buffer — at the end of a short input or at position
`N-1` for a truncated one — so the buffer contains a zero byte and the
subsequent `toStringView()` has length at most `N-1`; for capacity 4,
assigning an input of length at least 4 stores exactly the first 4
input bytes with no terminator. -/
theorem assign_terminator_spec (capacity : Nat) (mData value : List Nat)
    (hlen : mData.length = capacity) (hpos : 0 < capacity) :
    (capacity ≠ 4 →
      (∃ i, i < capacity ∧ (assign capacity mData value).getD i 0 = 0) ∧
      (toStringView capacity (assign capacity mData value)).length ≤ capacity - 1) ∧
    (capacity = 4 → 4 ≤ value.length → assign capacity mData value = value.take 4) := by
  constructor
  · intro hc4
    have hbuf : ∃ i, i < capacity ∧ (assign capacity mData value).getD i 0 = 0 := by
      by_cases hempty : value.length = 0
      · refine ⟨0, hpos, ?_⟩
        simp only [assign, if_pos hempty]
        cases capacity with
        | zero => omega
        | succ n => simp [clear, List.replicate_succ]
      · by_cases hshort : value.length < capacity
        · refine ⟨value.length, hshort, ?_⟩
          simp only [assign, if_neg hempty, if_pos hshort, if_neg hc4]
          have hlt : value.length
              < (value ++ 0 :: mData.drop (value.length + 1)).length := by
            simp
          rw [List.getD_eq_getElem _ _ hlt,
            List.getElem_append_right (le_refl value.length)]
          simp
        · refine ⟨capacity - 1, by omega, ?_⟩
          simp only [assign, if_neg hempty, if_neg hshort, if_neg hc4]
          have htk : (value.take (capacity - 1)).length = capacity - 1 := by
            rw [List.length_take]
            omega
          have hlt : capacity - 1 < (value.take (capacity - 1) ++ [0]).length := by
            simp [htk]
          rw [List.getD_eq_getElem _ _ hlt, List.getElem_append_right (by omega)]
          simp [htk]
    obtain ⟨i, hi, hz⟩ := hbuf
    refine ⟨⟨i, hi, hz⟩, ?_⟩
    have h1 := strnlen_le_of_getD_zero _ capacity i hi hz
    have h2 : (toStringView capacity (assign capacity mData value)).length
        ≤ strnlen (assign capacity mData value) capacity := by
      show (List.take _ _).length ≤ _
      rw [List.length_take]
      exact min_le_left _ _
    omega
  · intro hc4 hge
    subst hc4
    have hne : ¬ value.length = 0 := by omega
    have hns : ¬ value.length < 4 := by omega
    simp [assign, hne, hns]

/-- C10 witness: capacity 3 with an over-long input, and capacity 4 with
a 5-byte input. -/
theorem assign_terminator_spec_witness :
    ((3 ≠ 4 →
      (∃ i, i < 3 ∧ (assign 3 [1, 2, 3] [65, 66, 67, 68]).getD i 0 = 0) ∧
      (toStringView 3 (assign 3 [1, 2, 3] [65, 66, 67, 68])).length ≤ 3 - 1) ∧
    (3 = 4 → 4 ≤ [65, 66, 67, 68].length →
      assign 3 [1, 2, 3] [65, 66, 67, 68] = [65, 66, 67, 68].take 4)) ∧
    ((4 ≠ 4 →
      (∃ i, i < 4 ∧ (assign 4 [1, 2, 3, 4] [65, 66, 67, 68, 69]).getD i 0 = 0) ∧
      (toStringView 4 (assign 4 [1, 2, 3, 4] [65, 66, 67, 68, 69])).length ≤ 4 - 1) ∧
    (4 = 4 → 4 ≤ [65, 66, 67, 68, 69].length →
      assign 4 [1, 2, 3, 4] [65, 66, 67, 68, 69] = [65, 66, 67, 68, 69].take 4)) :=
  ⟨assign_terminator_spec 3 [1, 2, 3] [65, 66, 67, 68] rfl (by decide),
   assign_terminator_spec 4 [1, 2, 3, 4] [65, 66, 67, 68, 69] rfl (by decide)⟩

end FixedString

namespace Reader

/-- C6: restoring the context saved at a point in `InRecord` or
`InSubrecord` leaves the reader indistinguishable from the state at save
time — same last-read record and subrecord tags, same remaining record
and subrecord byte counts, same byte cursor and hence the same next
byte to be read — however far the reader (`rMoved`, same open file) has
wandered in between. -/
theorem restoreContext_saveContext (r rMoved : Reader)
    (hdata : rMoved.data = r.data)
    (hstate : r.state = ReaderState.InRecord ∨ r.state = ReaderState.InSubrecord) :
    (restoreContext rMoved (saveContext r)).ctx.recName = r.ctx.recName ∧
    (restoreContext rMoved (saveContext r)).ctx.subName = r.ctx.subName ∧
    (restoreContext rMoved (saveContext r)).ctx.leftRec = r.ctx.leftRec ∧
    (restoreContext rMoved (saveContext r)).ctx.leftSub = r.ctx.leftSub ∧
    (restoreContext rMoved (saveContext r)).pos = r.pos ∧
    (restoreContext rMoved (saveContext r)).restOfFile = r.restOfFile := by
  simp [restoreContext, saveContext, restOfFile, hdata]

/-- C6 witness: a reader two bytes into a five-byte file, saved, with a
second cursor position and dirtied counters in between. -/
theorem restoreContext_saveContext_witness :
    (restoreContext
        ⟨[1, 2, 3, 4, 5], 4, ReaderState.InSubrecord,
          ⟨"f", 9, 9, 9, [9, 9, 9, 9], [9, 9, 9, 9], 9, [9], true, 9⟩⟩
        (saveContext
          ⟨[1, 2, 3, 4, 5], 2, ReaderState.InRecord,
            ⟨"f", 10, 4, 0, [82, 69, 67, 49], [83, 85, 66, 49], 0, [], false, 0⟩⟩)).ctx.recName
      = (⟨[1, 2, 3, 4, 5], 2, ReaderState.InRecord,
          ⟨"f", 10, 4, 0, [82, 69, 67, 49], [83, 85, 66, 49], 0, [], false, 0⟩⟩ : Reader).ctx.recName ∧
    (restoreContext
        ⟨[1, 2, 3, 4, 5], 4, ReaderState.InSubrecord,
          ⟨"f", 9, 9, 9, [9, 9, 9, 9], [9, 9, 9, 9], 9, [9], true, 9⟩⟩
        (saveContext
          ⟨[1, 2, 3, 4, 5], 2, ReaderState.InRecord,
            ⟨"f", 10, 4, 0, [82, 69, 67, 49], [83, 85, 66, 49], 0, [], false, 0⟩⟩)).ctx.subName
      = (⟨[1, 2, 3, 4, 5], 2, ReaderState.InRecord,
          ⟨"f", 10, 4, 0, [82, 69, 67, 49], [83, 85, 66, 49], 0, [], false, 0⟩⟩ : Reader).ctx.subName ∧
    (restoreContext
        ⟨[1, 2, 3, 4, 5], 4, ReaderState.InSubrecord,
          ⟨"f", 9, 9, 9, [9, 9, 9, 9], [9, 9, 9, 9], 9, [9], true, 9⟩⟩
        (saveContext
          ⟨[1, 2, 3, 4, 5], 2, ReaderState.InRecord,
            ⟨"f", 10, 4, 0, [82, 69, 67, 49], [83, 85, 66, 49], 0, [], false, 0⟩⟩)).ctx.leftRec
      = (⟨[1, 2, 3, 4, 5], 2, ReaderState.InRecord,
          ⟨"f", 10, 4, 0, [82, 69, 67, 49], [83, 85, 66, 49], 0, [], false, 0⟩⟩ : Reader).ctx.leftRec ∧
    (restoreContext
        ⟨[1, 2, 3, 4, 5], 4, ReaderState.InSubrecord,
          ⟨"f", 9, 9, 9, [9, 9, 9, 9], [9, 9, 9, 9], 9, [9], true, 9⟩⟩
        (saveContext
          ⟨[1, 2, 3, 4, 5], 2, ReaderState.InRecord,
            ⟨"f", 10, 4, 0, [82, 69, 67, 49], [83, 85, 66, 49], 0, [], false, 0⟩⟩)).ctx.leftSub
      = (⟨[1, 2, 3, 4, 5], 2, ReaderState.InRecord,
          ⟨"f", 10, 4, 0, [82, 69, 67, 49], [83, 85, 66, 49], 0, [], false, 0⟩⟩ : Reader).ctx.leftSub ∧
    (restoreContext
        ⟨[1, 2, 3, 4, 5], 4, ReaderState.InSubrecord,
          ⟨"f", 9, 9, 9, [9, 9, 9, 9], [9, 9, 9, 9], 9, [9], true, 9⟩⟩
        (saveContext
          ⟨[1, 2, 3, 4, 5], 2, ReaderState.InRecord,
            ⟨"f", 10, 4, 0, [82, 69, 67, 49], [83, 85, 66, 49], 0, [], false, 0⟩⟩)).pos
      = (⟨[1, 2, 3, 4, 5], 2, ReaderState.InRecord,
          ⟨"f", 10, 4, 0, [82, 69, 67, 49], [83, 85, 66, 49], 0, [], false, 0⟩⟩ : Reader).pos ∧
    (restoreContext
        ⟨[1, 2, 3, 4, 5], 4, ReaderState.InSubrecord,
          ⟨"f", 9, 9, 9, [9, 9, 9, 9], [9, 9, 9, 9], 9, [9], true, 9⟩⟩
        (saveContext
          ⟨[1, 2, 3, 4, 5], 2, ReaderState.InRecord,
            ⟨"f", 10, 4, 0, [82, 69, 67, 49], [83, 85, 66, 49], 0, [], false, 0⟩⟩)).restOfFile
      = (⟨[1, 2, 3, 4, 5], 2, ReaderState.InRecord,
          ⟨"f", 10, 4, 0, [82, 69, 67, 49], [83, 85, 66, 49], 0, [], false, 0⟩⟩ : Reader).restOfFile :=
  restoreContext_saveContext
    ⟨[1, 2, 3, 4, 5], 2, ReaderState.InRecord,
      ⟨"f", 10, 4, 0, [82, 69, 67, 49], [83, 85, 66, 49], 0, [], false, 0⟩⟩
    ⟨[1, 2, 3, 4, 5], 4, ReaderState.InSubrecord,
      ⟨"f", 9, 9, 9, [9, 9, 9, 9], [9, 9, 9, 9], 9, [9], true, 9⟩⟩
    rfl (Or.inl rfl)

/-- C7: from `InRecord` with at least one subrecord remaining (and no
tag peeked yet), `peekSubrecordTag()` followed by
`nextSubrecordHeader()` consumes exactly one 8-byte subrecord header —
the final reader is the very one a single `nextSubrecordHeader()` would
have produced, its cursor 8 bytes further — and `nextSubrecordHeader()`
returns precisely the peeked tag, by reusing the cached one instead of
re-reading. -/
theorem peek_then_next (r : Reader)
    (hstate : r.state = ReaderState.InRecord)
    (hcache : r.ctx.subCached = false)
    (hbytes : r.pos + 8 ≤ r.data.length)
    (hleft : 8 ≤ r.ctx.leftRec)
    (hlen : bytesToUInt Endianness.little ((r.data.drop (r.pos + 4)).take 4)
      ≤ r.ctx.leftRec - 8) :
    ∃ tag r1 r2,
      peekSubrecordTag r = some (tag, r1) ∧
      nextSubrecordHeader r1 = SubHeaderResult.header tag r2 ∧
      nextSubrecordHeader r = SubHeaderResult.header tag r2 ∧
      r2.pos = r.pos + 8 := by
  obtain ⟨data, pos, state, ctx⟩ := r
  obtain ⟨fn, lr, ls, lf, rn, sn, idx, pfi, sc, fp⟩ := ctx
  simp only at hstate hcache hbytes hleft hlen
  subst hstate
  subst hcache
  have hp4 : pos + 4 ≤ data.length := by omega
  have hlr0 : ¬ lr = 0 := by omega
  have hchk : ¬ (lr < 8 ∨
      lr - 8 < bytesToUInt Endianness.little ((data.drop (pos + 4)).take 4)) := by
    push_neg
    exact ⟨by omega, hlen⟩
  refine ⟨(data.drop pos).take 4,
    ⟨data, pos + 4, ReaderState.InRecord,
      ⟨fn, lr, ls, lf, rn, (data.drop pos).take 4, idx, pfi, true, fp⟩⟩,
    ⟨data, pos + 8, ReaderState.InSubrecord,
      ⟨fn, lr - 8, bytesToUInt Endianness.little ((data.drop (pos + 4)).take 4), lf, rn,
        (data.drop pos).take 4, idx, pfi, false, fp⟩⟩,
    ?_, ?_, ?_, ?_⟩
  · simp [peekSubrecordTag, read4, hp4]
  · simp only [nextSubrecordHeader, read4]
    simp [hlr0, hchk, show pos + 4 + 4 ≤ data.length from by omega]
  · simp only [nextSubrecordHeader, read4]
    simp [hlr0, hchk, hp4, show pos + 4 + 4 ≤ data.length from by omega]
  · simp

/-- C7 witness: a 16-byte record body whose first subrecord header is
tag `"NAME"` with declared length 4. -/
theorem peek_then_next_witness :
    ∃ tag r1 r2,
      peekSubrecordTag
        ⟨[78, 65, 77, 69, 4, 0, 0, 0, 9, 9, 9, 9, 0, 0, 0, 0], 0,
          ReaderState.InRecord,
          ⟨"f", 16, 0, 0, [0, 0, 0, 0], [0, 0, 0, 0], 0, [], false, 0⟩⟩
        = some (tag, r1) ∧
      nextSubrecordHeader r1 = SubHeaderResult.header tag r2 ∧
      nextSubrecordHeader
        ⟨[78, 65, 77, 69, 4, 0, 0, 0, 9, 9, 9, 9, 0, 0, 0, 0], 0,
          ReaderState.InRecord,
          ⟨"f", 16, 0, 0, [0, 0, 0, 0], [0, 0, 0, 0], 0, [], false, 0⟩⟩
        = SubHeaderResult.header tag r2 ∧
      r2.pos =
        (⟨[78, 65, 77, 69, 4, 0, 0, 0, 9, 9, 9, 9, 0, 0, 0, 0], 0,
          ReaderState.InRecord,
          ⟨"f", 16, 0, 0, [0, 0, 0, 0], [0, 0, 0, 0], 0, [], false, 0⟩⟩ : Reader).pos + 8 :=
  peek_then_next
    ⟨[78, 65, 77, 69, 4, 0, 0, 0, 9, 9, 9, 9, 0, 0, 0, 0], 0,
      ReaderState.InRecord,
      ⟨"f", 16, 0, 0, [0, 0, 0, 0], [0, 0, 0, 0], 0, [], false, 0⟩⟩
    rfl rfl (by decide) (by decide) (by decide)

end Reader

namespace MultiFileOverlay

theorem visibleForKey_cons_record (i : Nat) (e : OverlayRecord)
    (out : List LogicalRecord) (K : Nat) :
    visibleForKey (LogicalRecord.record i e :: out) K =
      if e.key == K then LogicalRecord.record i e :: visibleForKey out K
      else visibleForKey out K := by
  simp [visibleForKey, List.filter_cons]

theorem visibleForKey_cons_removed (i k K : Nat) (out : List LogicalRecord) :
    visibleForKey (LogicalRecord.removed i k :: out) K = visibleForKey out K := by
  simp [visibleForKey, List.filter_cons]

theorem visibleForKey_append (x y : List LogicalRecord) (K : Nat) :
    visibleForKey (x ++ y) K = visibleForKey x K ++ visibleForKey y K := by
  simp [visibleForKey, List.filter_append]

theorem visibleForKey_filterMap_nil (files : List (List OverlayRecord)) (i K : Nat)
    (l : List OverlayRecord)
    (h : ∀ e ∈ l, e.key ≠ K ∨ winnerIdx files e.key ≠ some i) :
    visibleForKey (l.filterMap (entryOut files i)) K = [] := by
  induction l with
  | nil => simp [visibleForKey]
  | cons e l ih =>
    have he := h e (List.mem_cons_self e l)
    have hl : ∀ x ∈ l, x.key ≠ K ∨ winnerIdx files x.key ≠ some i :=
      fun x hx => h x (List.mem_cons_of_mem e hx)
    by_cases hw : winnerIdx files e.key = some i
    · have hkey : e.key ≠ K := by
        rcases he with h1 | h2
        · exact h1
        · exact absurd hw h2
      have hout : entryOut files i e =
          some (if isBlocked e.flags then LogicalRecord.removed i e.key
                else LogicalRecord.record i e) := by
        simp [entryOut, hw]
      rw [List.filterMap_cons_some hout]
      by_cases hb : isBlocked e.flags
      · rw [if_pos hb, visibleForKey_cons_removed]
        exact ih hl
      · rw [if_neg hb, visibleForKey_cons_record, if_neg (by simpa using hkey)]
        exact ih hl
    · have hout : entryOut files i e = none := by
        simp [entryOut, hw]
      rw [List.filterMap_cons_none hout]
      exact ih hl

theorem visibleForKey_filterMap_winner (files : List (List OverlayRecord)) (i K : Nat)
    (b : OverlayRecord) (l : List OverlayRecord)
    (hfilter : l.filter (fun e => e.key == K) = [b])
    (hwin : winnerIdx files K = some i) :
    visibleForKey (l.filterMap (entryOut files i)) K =
      (if isBlocked b.flags then [] else [LogicalRecord.record i b]) ∧
    (isBlocked b.flags = true →
      LogicalRecord.removed i K ∈ l.filterMap (entryOut files i)) := by
  induction l with
  | nil => simp at hfilter
  | cons e l ih =>
    by_cases hek : e.key = K
    · have hfe : (e.key == K) = true := by simpa using hek
      rw [List.filter_cons, if_pos hfe] at hfilter
      have heb : e = b := (List.cons_eq_cons.mp hfilter).1
      have hrest : l.filter (fun x => x.key == K) = [] :=
        ((List.cons_eq_cons.mp hfilter).2).symm.symm
      have hlnone : ∀ x ∈ l, x.key ≠ K ∨ winnerIdx files x.key ≠ some i := by
        intro x hx
        left
        intro hxk
        have hmem : x ∈ l.filter (fun y => y.key == K) :=
          List.mem_filter.mpr ⟨hx, by simpa using hxk⟩
        rw [hrest] at hmem
        simp at hmem
      have hvl : visibleForKey (l.filterMap (entryOut files i)) K = [] :=
        visibleForKey_filterMap_nil files i K l hlnone
      subst heb
      have hout : entryOut files i e =
          some (if isBlocked e.flags then LogicalRecord.removed i e.key
                else LogicalRecord.record i e) := by
        simp [entryOut, hek, hwin]
      rw [List.filterMap_cons_some hout]
      by_cases hb : isBlocked e.flags
      · constructor
        · rw [if_pos hb, if_pos hb, hek, visibleForKey_cons_removed]
          exact hvl
        · intro _
          simp [hb, hek]
      · constructor
        · rw [if_neg hb, if_neg hb, visibleForKey_cons_record,
            if_pos (by simpa using hek), hvl]
        · intro hcontra
          rw [hcontra] at hb
          simp at hb
    · have hfe : (e.key == K) = false := by simpa using hek
      rw [List.filter_cons, if_neg (by simp [hfe])] at hfilter
      obtain ⟨ihv, ihm⟩ := ih hfilter
      by_cases hw : winnerIdx files e.key = some i
      · have hout : entryOut files i e =
            some (if isBlocked e.flags then LogicalRecord.removed i e.key
                  else LogicalRecord.record i e) := by
          simp [entryOut, hw]
        rw [List.filterMap_cons_some hout]
        constructor
        · by_cases hb : isBlocked e.flags
          · rw [if_pos hb, visibleForKey_cons_removed]
            exact ihv
          · rw [if_neg hb, visibleForKey_cons_record, if_neg (by simp [hfe])]
            exact ihv
        · intro hbb
          have hmem := ihm hbb
          by_cases hb : isBlocked e.flags <;> simp [hmem]
      · have hout : entryOut files i e = none := by
          simp [entryOut, hw]
        rw [List.filterMap_cons_none hout]
        exact ⟨ihv, ihm⟩

/-- C2: for files A (base) and B (override) both defining a record with
key K — B defining it exactly once — the merged logical stream yields
exactly one visible record for K, the one from B (carrying file index
1); and when B's entry for K has the `Blocked` flag, no record for K is
visible at all and a tombstone for K is surfaced to the caller. -/
theorem overlay_override (A B : List OverlayRecord) (K : Nat) (b : OverlayRecord)
    (hA : definesKey A K = true)
    (hB : B.filter (fun e => e.key == K) = [b]) :
    (isBlocked b.flags = false →
      visibleForKey (nextLogicalRecordStream [A, B]) K = [LogicalRecord.record 1 b]) ∧
    (isBlocked b.flags = true →
      visibleForKey (nextLogicalRecordStream [A, B]) K = [] ∧
      LogicalRecord.removed 1 K ∈ nextLogicalRecordStream [A, B]) := by
  have hbmem : b ∈ B.filter (fun e => e.key == K) := by
    rw [hB]
    exact List.mem_singleton_self b
  have hBdef : definesKey B K = true := by
    rcases List.mem_filter.mp hbmem with ⟨hmem, hpred⟩
    simp only [definesKey, List.any_eq_true]
    exact ⟨b, hmem, hpred⟩
  have hwin : winnerIdx [A, B] K = some 1 := by
    rw [winnerIdx,
      show List.range (List.length ([A, B] : List (List OverlayRecord))) = [0, 1] from rfl]
    simp only [List.filter_cons, List.filter_nil, List.getD_cons_zero,
      List.getD_cons_succ, hA, hBdef]
    rfl
  have hstream : nextLogicalRecordStream [A, B] =
      A.filterMap (entryOut [A, B] 0) ++ B.filterMap (entryOut [A, B] 1) := by
    rw [nextLogicalRecordStream,
      show List.range (List.length ([A, B] : List (List OverlayRecord))) = [0, 1] from rfl]
    simp only [List.flatMap_cons, List.flatMap_nil, fileOutput, List.getD_cons_zero,
      List.getD_cons_succ, List.append_nil]
  have hfile0 : visibleForKey (A.filterMap (entryOut [A, B] 0)) K = [] := by
    apply visibleForKey_filterMap_nil
    intro e hmem
    by_cases hek : e.key = K
    · right
      rw [hek, hwin]
      simp
    · left
      exact hek
  obtain ⟨hfile1, hfile1mem⟩ :=
    visibleForKey_filterMap_winner [A, B] 1 K b B hB hwin
  constructor
  · intro hnb
    rw [hstream, visibleForKey_append, hfile0, hfile1, hnb]
    simp
  · intro hbb
    constructor
    · rw [hstream, visibleForKey_append, hfile0, hfile1, hbb]
      simp
    · rw [hstream]
      exact List.mem_append_right _ (hfile1mem hbb)

/-- C2 witness: base file defining key 7, override file redefining it
(plain override) and, in the second application, blocking it. -/
theorem overlay_override_witness :
    ((isBlocked (⟨7, 1024, [2]⟩ : OverlayRecord).flags = false →
      visibleForKey (nextLogicalRecordStream [[⟨7, 0, [1]⟩], [⟨7, 1024, [2]⟩]]) 7 =
        [LogicalRecord.record 1 ⟨7, 1024, [2]⟩]) ∧
    (isBlocked (⟨7, 1024, [2]⟩ : OverlayRecord).flags = true →
      visibleForKey (nextLogicalRecordStream [[⟨7, 0, [1]⟩], [⟨7, 1024, [2]⟩]]) 7 = [] ∧
      LogicalRecord.removed 1 7 ∈ nextLogicalRecordStream [[⟨7, 0, [1]⟩], [⟨7, 1024, [2]⟩]])) ∧
    ((isBlocked (⟨7, 8192, []⟩ : OverlayRecord).flags = false →
      visibleForKey (nextLogicalRecordStream [[⟨7, 0, [1]⟩], [⟨7, 8192, []⟩]]) 7 =
        [LogicalRecord.record 1 ⟨7, 8192, []⟩]) ∧
    (isBlocked (⟨7, 8192, []⟩ : OverlayRecord).flags = true →
      visibleForKey (nextLogicalRecordStream [[⟨7, 0, [1]⟩], [⟨7, 8192, []⟩]]) 7 = [] ∧
      LogicalRecord.removed 1 7 ∈ nextLogicalRecordStream [[⟨7, 0, [1]⟩], [⟨7, 8192, []⟩]])) :=
  ⟨overlay_override [⟨7, 0, [1]⟩] [⟨7, 1024, [2]⟩] 7 ⟨7, 1024, [2]⟩
      (by decide) (by decide),
   overlay_override [⟨7, 0, [1]⟩] [⟨7, 8192, []⟩] 7 ⟨7, 8192, []⟩
      (by decide) (by decide)⟩

end MultiFileOverlay

end ESM
